import Mathlib

/-!
Shallow embedding of `src/scripts/preprocess_augmentations.py` and
`src/scripts/preprocess_outlier_augmentations.py` (the `ResampleDataset`
class, its `resume_preprocessing` method, `__getitem__`, and the
`test_integrity` audit), together with proofs about the embedded code.

Filesystem state is modelled explicitly: a directory listing is a list of
filenames (with `Option` capturing a missing directory, where `os.listdir`
raises), and the backing store is an association list from full paths to
archive contents.  `np.load` succeeds on a path exactly when the store maps
it to a zip archive; extracting the two named arrays succeeds according to
the two boolean flags of the archive entry.  All definitions are structural
recursions so that concrete runs evaluate by `rfl`/`decide`.
-/

namespace Datacentric

/-- Python `s.split(sep)` for a one-character separator: `"".split` gives
`[""]`, separators at the ends produce empty fields. -/
def splitOnChar (sep : Char) : List Char → List (List Char)
  | [] => [[]]
  | c :: cs =>
    match splitOnChar sep cs with
    | [] => [[]]
    | g :: gs => if c = sep then [] :: g :: gs else (c :: g) :: gs

/-- Python `s.split(sep)` on strings (single-character separator). -/
def pySplit (s : String) (sep : Char) : List String :=
  (splitOnChar sep s.toList).map String.mk

/-- Python `sep.join(parts)`. -/
def joinWith (sep : String) : List String → String
  | [] => ""
  | [x] => x
  | x :: y :: xs => x ++ sep ++ joinWith sep (y :: xs)

/-- Python `parts[-1]` after `s.split("/")`; also `posixpath.basename` for
the inputs arising here (the last `/`-separated component). -/
def lastComponent (s : String) : String :=
  (pySplit s '/').getLastD ""

/-- `posixpath.join` restricted to two components, as used by
`os.path.join(dir, name)` in the scripts (POSIX rules: an absolute second
component replaces the first). -/
def pathJoin (a b : String) : String :=
  if (match b.toList with | [] => false | c :: _ => c == '/') then b
  else if a == "" || (match a.toList.getLast? with | some c => c == '/' | none => false) then a ++ b
  else a ++ "/" ++ b

/-- `posixpath.dirname` on the character list: everything up to the last
`/`, with trailing slashes stripped unless the result is all slashes. -/
def dirnameChars (cs : List Char) : List Char :=
  let head := (cs.reverse.dropWhile (fun c => !(c == '/'))).reverse
  if head.all (fun c => c == '/') then head
  else (head.reverse.dropWhile (fun c => c == '/')).reverse

/-- `os.path.dirname` (POSIX). -/
def dirname (p : String) : String :=
  String.mk (dirnameChars p.toList)

/-- Whether `pat` is a prefix of `cs`. -/
def isPrefixList : List Char → List Char → Bool
  | [], _ => true
  | _ :: _, [] => false
  | p :: ps, c :: cs => p == c && isPrefixList ps cs

/-- Worker for Python `s.replace(pat, rep)` with a non-empty pattern:
scans left to right, replacing non-overlapping occurrences.  The fuel is
structural and `cs.length` fuel always suffices (each step consumes at
least one character). -/
def replaceAllAux (pat rep : List Char) : Nat → List Char → List Char
  | 0, cs => cs
  | _ + 1, [] => []
  | fuel + 1, c :: cs =>
    if isPrefixList pat (c :: cs) then
      rep ++ replaceAllAux pat rep fuel (List.drop (pat.length - 1) cs)
    else
      c :: replaceAllAux pat rep fuel cs

/-- Python `s.replace(pat, rep)` (for the non-empty patterns used by the
scripts): every occurrence of `pat` is replaced, not only a suffix. -/
def pyReplace (s pat rep : String) : String :=
  String.mk (replaceAllAux pat.toList rep.toList s.toList.length s.toList)

/-- `"_".join(name.split("_")[:-1])`: the prefix of a filename obtained by
stripping the trailing `_`-separated component
(`resume_preprocessing`, line 76 of both scripts). -/
def stripIndex (s : String) : String :=
  joinWith "_" ((pySplit s '_').dropLast)

/-- Little-endian decimal digits of `n`, with structural fuel
(`fuel ≥ n` suffices). -/
def decDigitsAux : Nat → Nat → List Nat
  | 0, _ => []
  | _ + 1, 0 => []
  | fuel + 1, n + 1 => ((n + 1) % 10) :: decDigitsAux fuel ((n + 1) / 10)

/-- Big-endian decimal digits of `n` (with `[0]` for `0`). -/
def digitsBE (n : Nat) : List Nat :=
  if n = 0 then [0] else (decDigitsAux n n).reverse

/-- The character of a decimal digit. -/
def digitChar : Nat → Char
  | 0 => '0' | 1 => '1' | 2 => '2' | 3 => '3' | 4 => '4'
  | 5 => '5' | 6 => '6' | 7 => '7' | 8 => '8' | 9 => '9'
  | _ => '?'

/-- Python `f"{n:03d}"` for natural `n`: the decimal digits of `n`
left-padded with zeros to width 3. -/
def pad3 (n : Nat) : String :=
  String.mk ((List.replicate (3 - (digitsBE n).length) 0 ++ digitsBE n).map digitChar)

/-- The archive filename `f"{base}_{i:03d}.npz"` built by both scripts. -/
def archiveName (base : String) (i : Nat) : String :=
  base ++ "_" ++ pad3 i ++ ".npz"

/-- Lexicographic (code-point) order on character lists, the order Python
uses for strings and hence the order of `np.unique`'s sorted output. -/
def lexLt : List Char → List Char → Bool
  | [], [] => false
  | [], _ :: _ => true
  | _ :: _, [] => false
  | a :: as, b :: bs =>
    if a.toNat < b.toNat then true
    else if b.toNat < a.toNat then false
    else lexLt as bs

/-- Insertion into an ascending list under `lexLt`. -/
def insertSorted (x : String) : List String → List String
  | [] => [x]
  | y :: ys => if lexLt y.toList x.toList then y :: insertSorted x ys else x :: y :: ys

/-- Ascending sort of a list of strings; on duplicate-free input this is
the unique sorted arrangement, i.e. the order of `np.unique`. -/
def sortStrings (l : List String) : List String :=
  l.foldr insertSorted []

/-!  ## Filesystem model  -/

/-- Contents of one on-disk file as seen by `np.load`:
`notAZip` makes `np.load` itself raise (garbage/truncated zip, the failure
happens when the archive directory is parsed), while `zip inputOk labelOk`
is a loadable `.npz` handle whose two named arrays can be extracted
(`data["input"]`, `data["label"]`) according to the two flags — `NpzFile`
decompresses members lazily, so member corruption surfaces only at the
indexing step, which in both scripts sits inside the `try` block. -/
inductive Archive
  | notAZip
  | zip (inputOk labelOk : Bool)
deriving DecidableEq

/-- The backing store: full path ↦ file contents.  A path absent from the
store does not exist (`np.load` raises `FileNotFoundError`,
`os.path.exists` is false). -/
abbrev Store := List (String × Archive)

/-!  ## `resume_preprocessing` (identical in both scripts, lines 74–91) -/

/-- Errors with which `resume_preprocessing` can raise.
`listDirFailed` is `os.listdir` on a missing destination directory;
`fileNotFound`/`badZip` are uncaught `np.load` failures (the `np.load`
call sits *outside* the `try` block); `outOfFuel` is an artifact of the
step-indexed embedding and is proved unreachable for the fuel used. -/
inductive LoadErr
  | listDirFailed
  | fileNotFound (path : String)
  | badZip (path : String)
  | outOfFuel
deriving DecidableEq

/-- Result of one iteration of the `for j, i in enumerate(valid_files)`
loop: either the whole call finishes (normally or by an uncaught
exception), or iteration continues with a mutated list and the next
iterator position. -/
inductive StepRes
  | done (r : Except LoadErr (List String))
  | next (l : List String) (k : Nat)

/-- One iteration of the resume-validation loop.  Python's list iterator
yields `valid_files[k]` while the `enumerate` counter `j` equals `k`, so:
on success the full `test_file` path is appended to the list being
iterated (source line 86); on an exception inside the `try`, `pop(j)`
removes the current element and the iterator then skips the element that
shifts into position `k`; a failure of `np.load` itself is not caught and
aborts the call. -/
def resumeStep (store : Store) (dest : String) (spf : Nat)
    (l : List String) (k : Nat) : StepRes :=
  if h : k < l.length then
    let t := pathJoin dest (archiveName (l.get ⟨k, h⟩) (spf - 1))
    match List.lookup t store with
    | none => .done (.error (.fileNotFound t))
    | some .notAZip => .done (.error (.badZip t))
    | some (.zip a b) =>
      if a && b then .next (l ++ [t]) (k + 1)
      else .next (l.eraseIdx k) (k + 1)
  else .done (.ok l)

/-- The resume-validation loop, step-indexed.  `none` means the fuel ran
out; the termination theorem shows a computable fuel bound always
suffices. -/
def resumeLoopF (store : Store) (dest : String) (spf : Nat) :
    Nat → List String → Nat → Option (Except LoadErr (List String))
  | 0, _, _ => none
  | fuel + 1, l, k =>
    match resumeStep store dest spf l k with
    | .done r => some r
    | .next l2 k2 => resumeLoopF store dest spf fuel l2 k2

/-- Keys of store entries whose archive opens and whose two arrays both
extract — the only entries that can cause an append in the loop. -/
def okKeys (store : Store) : List String :=
  (store.filter (fun e => e.2 = Archive.zip true true)).map Prod.fst

/-- Termination potential of one pending list element: the number of
fully-loadable store keys strictly longer than it.  Each append pushes an
element whose potential is strictly smaller. -/
def phi (store : Store) (x : String) : Nat :=
  ((okKeys store).filter (fun s => decide (x.length < s.length))).length

/-- Weight of a pending element. -/
def wgt (store : Store) (x : String) : Nat := 2 * phi store x + 1

/-- Total weight of a list of elements. -/
def muList (store : Store) (l : List String) : Nat :=
  (l.map (wgt store)).sum

/-- Termination measure of a loop state: total weight of the not yet
visited part of the list. -/
def mu (store : Store) (l : List String) (k : Nat) : Nat :=
  muList store (l.drop k)

/-- `"_".join(i.split("_")[:-1])` over the listing, `np.unique` with
counts, and the selection `unique_files[counts == samples_per_file]`
(source lines 75–78): the sorted duplicate-free prefixes whose number of
occurrences among the listed filenames is exactly `samples_per_file`. -/
def validInit (names : List String) (spf : Nat) : List String :=
  (sortStrings (names.map stripIndex).dedup).filter
    (fun p => (names.map stripIndex).count p = spf)

/-- `ResampleDataset.resume_preprocessing`.  `listing` is the result of
`os.listdir(self.destination)` (`none` when the directory is missing, in
which case `os.listdir` raises).  The loop is run with the provably
sufficient fuel `mu + 1`. -/
def resume_preprocessing (store : Store) (dest : String)
    (listing : Option (List String)) (spf : Nat) :
    Except LoadErr (List String) :=
  match listing with
  | none => .error .listDirFailed
  | some names =>
    (resumeLoopF store dest spf (mu store (validInit names spf) 0 + 1)
      (validInit names spf) 0).getD (.error .outOfFuel)

/-- The `resume` branch of `ResampleDataset.__init__` (lines 52–54):
`train_val_data = list(set(train_val_data) - set(valid_files))`, with the
set difference represented as a duplicate-free filtered list.  When
`resume_preprocessing` raises, construction raises. -/
def initWorkList (store : Store) (dest : String)
    (listing : Option (List String)) (spf : Nat)
    (trainVal : List String) (resume : Bool) :
    Except LoadErr (List String) :=
  if resume then
    (resume_preprocessing store dest listing spf).map
      (fun valid => trainVal.dedup.filter (fun c => !(valid.contains c)))
  else .ok trainVal

/-!  ## `__getitem__` of both variants as event traces

The stochastic transform is abstracted as `draw : Nat → α`, the image
tensor produced for slot `i` (the label tensor plays no role in control
flow and is omitted from events).  A run of the per-Case loop is recorded
as a list of events: transform invocations, outlier-filter invocations,
`os.makedirs` calls, lock acquisition/release, and `np.savez_compressed`
writes. -/

inductive Ev (α : Type)
  | transformCall (i : Nat)
  | filterCall (i : Nat) (image : α)
  | makedirs (dir : String)
  | acquire
  | release
  | write (path : String) (image : α)
deriving DecidableEq

/-- Lines 67–71 (plain) resp. 72–74 (outlier variant): ensure the parent
directory exists, then serialize under the lock.  `os.makedirs` runs
*before* `with self.lock:`. -/
def persistBlock {α : Type} (p : String) (img : α) : List (Ev α) :=
  [Ev.makedirs (dirname p), Ev.acquire, Ev.write p img, Ev.release]

/-- `label_name = str(file_path["label"]).replace(".nii.gz", "").split("/")[-1]`
(line 66 of the plain script, line 70 of the outlier script). -/
def labelName (label : String) : String :=
  lastComponent (pyReplace label ".nii.gz" "")

/-- `label_base = os.path.basename(label_name)` (plain script, line 67). -/
def labelBasePlain (label : String) : String :=
  lastComponent (labelName label)

/-- Output path of slot `i` in the plain script (line 68). -/
def outPathPlain (dest label : String) (i : Nat) : String :=
  pathJoin dest (archiveName (labelBasePlain label) i)

/-- Output path of slot `i` in the outlier script (line 71), which uses
`label_name` directly. -/
def outPathOutlier (dest label : String) (i : Nat) : String :=
  pathJoin dest (archiveName (labelName label) i)

/-- `ResampleDataset.__getitem__` of `preprocess_augmentations.py`
(lines 62–72): for each slot `i < samples_per_file`, invoke the transform
and persist the draw; there is no filter in this variant.  The returned
`(image, label)` value is irrelevant to the persisted state and is not
modelled. -/
def getitemPlain {α : Type} (dest label : String) (spf : Nat)
    (draw : Nat → α) : List (Ev α) :=
  (List.range spf).flatMap (fun i =>
    Ev.transformCall i :: persistBlock (outPathPlain dest label i) (draw i))

/-- Body of `ResampleDataset.__getitem__` of
`preprocess_outlier_augmentations.py` (lines 59–75), under the assumption
that the attribute read `self.outlier_detection_fn` yields `fil`:
each slot invokes the transform; with a filter present the filter is
applied to the image and a rejected draw is skipped (`continue`, the slot
index is consumed); otherwise the draw is persisted. -/
def outlierTrace {α : Type} (dest label : String) (spf : Nat)
    (draw : Nat → α) (fil : Option (α → Bool)) : List (Ev α) :=
  (List.range spf).flatMap (fun i =>
    Ev.transformCall i ::
      match fil with
      | none => persistBlock (outPathOutlier dest label i) (draw i)
      | some f =>
        Ev.filterCall i (draw i) ::
          (if f (draw i) then []
           else persistBlock (outPathOutlier dest label i) (draw i)))

/-- The fields `__init__` of the outlier script actually assigns
(lines 36–54).  `outlierAttr` models the instance attribute
`outlier_detection_fn`: `none` means the attribute was never assigned
(reading it raises `AttributeError`), `some fil` means it was assigned
the value `fil`. -/
structure OutlierDS (α : Type) where
  destination : String
  samples_per_file : Nat
  draw : Nat → α
  outlierAttr : Option (Option (α → Bool))

/-- `ResampleDataset.__init__` of the outlier script: the constructor
parameter `outlier_detection_fn` is accepted but never stored on `self`
— no line of `__init__` assigns `self.outlier_detection_fn`, so the
attribute stays unassigned. -/
def outlierInit {α : Type} (dest : String) (spf : Nat) (draw : Nat → α)
    (_outlier_detection_fn : Option (α → Bool)) : OutlierDS α :=
  { destination := dest, samples_per_file := spf, draw := draw,
    outlierAttr := none }

/-- Runtime error of a `__getitem__` call. -/
inductive RunErr
  | attributeError
deriving DecidableEq

/-- A full `__getitem__` call on the outlier dataset: the events emitted
and, if the call raised, the exception.  With at least one slot, the
first iteration invokes the transform (line 62) and then reads
`self.outlier_detection_fn` (line 65); if that attribute was never
assigned the read raises `AttributeError` there. -/
def outlierGetitemRun {α : Type} (ds : OutlierDS α) (label : String) :
    List (Ev α) × Option RunErr :=
  match ds.samples_per_file, ds.outlierAttr with
  | 0, _ => ([], none)
  | _ + 1, none => ([Ev.transformCall 0], some RunErr.attributeError)
  | _ + 1, some fil =>
    (outlierTrace ds.destination label ds.samples_per_file ds.draw fil, none)

/-- The paths written by a trace (the `np.savez_compressed` calls). -/
def writesOf {α : Type} (tr : List (Ev α)) : List String :=
  tr.filterMap (fun e => match e with | Ev.write p _ => some p | _ => none)

/-- The filter invocations of a trace, with the image each was applied to. -/
def filterCallsOf {α : Type} (tr : List (Ev α)) : List (Nat × α) :=
  tr.filterMap (fun e => match e with | Ev.filterCall i x => some (i, x) | _ => none)

/-- Whether a draw passes the filter stage: no filter accepts everything,
a present filter rejects exactly when it returns true. -/
def acceptsB {α : Type} (fil : Option (α → Bool)) (x : α) : Bool :=
  match fil with
  | none => true
  | some f => !(f x)

/-- Removal of one trailing occurrence of `suf` (and nothing else). -/
def stripSuffixOnce (s suf : String) : String :=
  if suf.data.isSuffixOf s.data then
    String.mk (s.data.take (s.data.length - suf.data.length))
  else s

/-- The naming rule as the design document words it: `label_base` is the
label filename with its volume-format suffix `.nii.gz` stripped and path
components removed.  Stated for comparison with the code's computation
(`labelBasePlain`/`labelName`), which instead deletes *every* occurrence
of the substring `.nii.gz`. -/
def labelBaseSpec (label : String) : String :=
  lastComponent (stripSuffixOnce label ".nii.gz")

/-!  ## Lock discipline of a trace  -/

/-- Lock depth transition of one event. -/
def evStep {α : Type} (d : Int) : Ev α → Int
  | Ev.acquire => d + 1
  | Ev.release => d - 1
  | _ => d

/-- Check a per-event predicate of the current lock depth along a trace. -/
def checkTrace {α : Type} (p : Int → Ev α → Bool) : Int → List (Ev α) → Bool
  | _, [] => true
  | d, e :: r => p d e && checkTrace p (evStep d e) r

/-- Lock depth after a trace. -/
def finalDepth {α : Type} (d : Int) (tr : List (Ev α)) : Int :=
  tr.foldl evStep d

/-- The discipline the code actually follows: every `np.savez_compressed`
happens at lock depth exactly 1 (inside the single critical section),
every `os.makedirs` at depth 0 (outside the lock), and a release only
happens with the lock held. -/
def codeGuard {α : Type} (d : Int) : Ev α → Bool
  | Ev.write _ _ => d == 1
  | Ev.makedirs _ => d == 0
  | Ev.release => decide (0 < d)
  | _ => true

/-- The discipline in which directory creation and the write both sit
inside the critical section. -/
def claimGuard {α : Type} (d : Int) : Ev α → Bool
  | Ev.write _ _ => decide (0 < d)
  | Ev.makedirs _ => decide (0 < d)
  | _ => true

/-!  ## `test_integrity` (lines 94–107 of the plain script, identical in
the outlier script) -/

/-- Which named array failed to extract; the code reads `data["input"]`
first, so an input failure is reported even if the label is also bad. -/
inductive ArrFail
  | inputBad
  | labelBad
deriving DecidableEq

/-- Uncaught exceptions of `test_integrity`: the explicit
`raise FileNotFoundError` for a listed-but-missing file, and an `np.load`
failure (the `np.load` call is outside the `try` block). -/
inductive VerifyErr
  | fileNotFound (name : String)
  | loadFailed (name : String)
deriving DecidableEq

/-- The reported line (`print`) produced for one successfully opened
file, if its array extraction fails. -/
def repOf (f : String) (a b : Bool) : List (String × ArrFail) :=
  if !a then [(f, ArrFail.inputBad)]
  else if !b then [(f, ArrFail.labelBad)]
  else []

/-- `test_integrity(dir_path)`: walk the listing; a listed file that no
longer exists raises `FileNotFoundError` (halting the walk), a file
`np.load` cannot open raises (halting the walk), an extraction failure
inside the `try` is printed and the walk continues.  The result is the
list of printed reports before any abort, paired with the uncaught
exception if one occurred. -/
def test_integrity (store : Store) (dirPath : String) :
    List String → List (String × ArrFail) × Option VerifyErr
  | [] => ([], none)
  | f :: rest =>
    match List.lookup (pathJoin dirPath f) store with
    | none => ([], some (.fileNotFound f))
    | some .notAZip => ([], some (.loadFailed f))
    | some (.zip a b) =>
      let r := test_integrity store dirPath rest
      (repOf f a b ++ r.1, r.2)

/-- The report `test_integrity` would emit for a listed file, as a
function of the store (used to characterise a completed scan). -/
def reportOf (store : Store) (dirPath : String) (f : String) :
    Option (String × ArrFail) :=
  match List.lookup (pathJoin dirPath f) store with
  | some (Archive.zip a b) =>
    if !a then some (f, ArrFail.inputBad)
    else if !b then some (f, ArrFail.labelBad)
    else none
  | _ => none

/-- A listed file the verifier can open: it exists and `np.load` parses
it as a zip archive. -/
def openable (store : Store) (dirPath : String) (f : String) : Prop :=
  ∃ a b, List.lookup (pathJoin dirPath f) store = some (Archive.zip a b)

/-!  ## Correctness of the decimal embedding -/

theorem decDigitsAux_eq_digits :
    ∀ (fuel n : Nat), n ≤ fuel → decDigitsAux fuel n = Nat.digits 10 n := by
  intro fuel
  induction fuel with
  | zero =>
    intro n hn
    have : n = 0 := Nat.le_zero.mp hn
    subst this
    show ([] : List Nat) = Nat.digits 10 0
    rw [Nat.digits_zero]
  | succ fuel ih =>
    intro n hn
    match n with
    | 0 =>
      show ([] : List Nat) = Nat.digits 10 0
      rw [Nat.digits_zero]
    | n + 1 =>
      have hdiv : (n + 1) / 10 ≤ fuel := by
        have := Nat.div_lt_self (Nat.succ_pos n) (by omega : 1 < 10)
        omega
      show ((n + 1) % 10) :: decDigitsAux fuel ((n + 1) / 10) = _
      rw [ih _ hdiv, Nat.digits_def' (by omega : 1 < 10) (Nat.succ_pos n)]

theorem digitsBE_eq_digits (n : Nat) (hn : n ≠ 0) :
    digitsBE n = (Nat.digits 10 n).reverse := by
  unfold digitsBE
  rw [if_neg hn, decDigitsAux_eq_digits n n le_rfl]

theorem digitsBE_inj {m n : Nat} (h : digitsBE m = digitsBE n) : m = n := by
  by_cases hm : m = 0 <;> by_cases hn : n = 0
  · omega
  · exfalso
    rw [hm, digitsBE_eq_digits n hn] at h
    have hd : Nat.digits 10 n = [0] := by
      have := congrArg List.reverse h
      simpa using this.symm
    have : n = 0 := by
      have := Nat.ofDigits_digits 10 n
      rw [hd] at this
      simpa [Nat.ofDigits] using this.symm
    exact hn this
  · exfalso
    rw [hn, digitsBE_eq_digits m hm] at h
    have hd : Nat.digits 10 m = [0] := by
      have := congrArg List.reverse h
      simpa using this
    have : m = 0 := by
      have := Nat.ofDigits_digits 10 m
      rw [hd] at this
      simpa [Nat.ofDigits] using this.symm
    exact hm this
  · rw [digitsBE_eq_digits m hm, digitsBE_eq_digits n hn] at h
    have hd := List.reverse_injective h
    have h1 := Nat.ofDigits_digits 10 m
    have h2 := Nat.ofDigits_digits 10 n
    rw [hd] at h1
    omega

theorem digitsBE_head (n : Nat) (hn : n ≠ 0) :
    ∃ d t, digitsBE n = d :: t ∧ d ≠ 0 := by
  have hne : Nat.digits 10 n ≠ [] := Nat.digits_ne_nil_iff_ne_zero.mpr hn
  refine ⟨(Nat.digits 10 n).getLast hne, (Nat.digits 10 n).dropLast.reverse,
    ?_, Nat.getLast_digit_ne_zero 10 hn⟩
  rw [digitsBE_eq_digits n hn]
  conv_lhs => rw [← List.dropLast_append_getLast hne]
  rw [List.reverse_append]
  rfl

theorem digitsBE_lt_ten (n : Nat) : ∀ d ∈ digitsBE n, d < 10 := by
  by_cases hn : n = 0
  · subst hn
    intro d hd
    have h0 : digitsBE 0 = [0] := rfl
    rw [h0, List.mem_singleton] at hd
    omega
  · rw [digitsBE_eq_digits n hn]
    intro d hd
    rw [List.mem_reverse] at hd
    exact Nat.digits_lt_base (by omega) hd

theorem digitChar_inj {a b : Nat} (ha : a < 10) (hb : b < 10)
    (h : digitChar a = digitChar b) : a = b := by
  interval_cases a <;> interval_cases b <;> revert h <;> decide

theorem mapDigitChar_inj :
    ∀ (xs ys : List Nat), (∀ x ∈ xs, x < 10) → (∀ y ∈ ys, y < 10) →
      xs.map digitChar = ys.map digitChar → xs = ys := by
  intro xs
  induction xs with
  | nil =>
    intro ys _ _ h
    cases ys with
    | nil => rfl
    | cons y ys => simp at h
  | cons x xs ih =>
    intro ys hxs hys h
    cases ys with
    | nil => simp at h
    | cons y ys =>
      simp only [List.map_cons, List.cons.injEq] at h
      have hx : x = y :=
        digitChar_inj (hxs x (by simp)) (hys y (by simp)) h.1
      have := ih ys (fun a ha => hxs a (by simp [ha]))
        (fun a ha => hys a (by simp [ha])) h.2
      rw [hx, this]

theorem dropWhile_replicate_zero (k : Nat) (l : List Nat) :
    List.dropWhile (fun d => d == 0) (List.replicate k 0 ++ l) =
      List.dropWhile (fun d => d == 0) l := by
  induction k with
  | zero => rfl
  | succ k ih => simp [List.replicate_succ, List.dropWhile_cons, ih]

theorem dropWhile_digitsBE (n : Nat) :
    List.dropWhile (fun d => d == 0) (digitsBE n) =
      if n = 0 then [] else digitsBE n := by
  by_cases hn : n = 0
  · subst hn
    rfl
  · obtain ⟨d, t, hdt, hd⟩ := digitsBE_head n hn
    rw [if_neg hn, hdt, List.dropWhile_cons, if_neg (by simpa using hd)]

theorem padDigits_inj {m n : Nat}
    (h : List.replicate (3 - (digitsBE m).length) 0 ++ digitsBE m =
      List.replicate (3 - (digitsBE n).length) 0 ++ digitsBE n) : m = n := by
  have h2 := congrArg (List.dropWhile (fun d => d == 0)) h
  rw [dropWhile_replicate_zero, dropWhile_replicate_zero,
    dropWhile_digitsBE, dropWhile_digitsBE] at h2
  by_cases hm : m = 0 <;> by_cases hn : n = 0
  · omega
  · exfalso
    rw [if_pos hm, if_neg hn] at h2
    obtain ⟨d, t, hdt, _⟩ := digitsBE_head n hn
    rw [hdt] at h2
    exact List.noConfusion h2
  · exfalso
    rw [if_neg hm, if_pos hn] at h2
    obtain ⟨d, t, hdt, _⟩ := digitsBE_head m hm
    rw [hdt] at h2
    exact List.noConfusion h2
  · rw [if_neg hm, if_neg hn] at h2
    exact digitsBE_inj h2

theorem pad3_inj : Function.Injective pad3 := by
  intro m n h
  have h2 : (List.replicate (3 - (digitsBE m).length) 0 ++ digitsBE m).map digitChar =
      (List.replicate (3 - (digitsBE n).length) 0 ++ digitsBE n).map digitChar :=
    congrArg String.data h
  refine padDigits_inj (mapDigitChar_inj _ _ ?_ ?_ h2) <;>
  · intro x hx
    rcases List.mem_append.mp hx with hx | hx
    · have := List.eq_of_mem_replicate hx
      omega
    · exact digitsBE_lt_ten _ x hx

theorem archiveName_inj (base : String) : Function.Injective (archiveName base) := by
  intro i j h
  have h1 : base.data ++ ("_".data ++ ((pad3 i).data ++ ".npz".data)) =
      base.data ++ ("_".data ++ ((pad3 j).data ++ ".npz".data)) := by
    simpa [archiveName, String.data_append, List.append_assoc] using
      congrArg String.data h
  have h2 := List.append_cancel_left h1
  have h3 := List.append_cancel_left h2
  have h4 := List.append_cancel_right h3
  exact pad3_inj (String.ext h4)

/-!  ## Termination of the resume-validation loop -/

theorem archiveName_length (x : String) (m : Nat) :
    x.length < (archiveName x m).length := by
  unfold archiveName
  rw [String.length_append, String.length_append, String.length_append]
  have h1 : ("_" : String).length = 1 := rfl
  have h2 : (".npz" : String).length = 4 := rfl
  omega

theorem pathJoin_length_ge (a b : String) : b.length ≤ (pathJoin a b).length := by
  unfold pathJoin
  split
  · exact le_rfl
  · split
    · rw [String.length_append]
      omega
    · rw [String.length_append, String.length_append]
      omega

theorem lookup_pair_mem :
    ∀ {l : Store} {k : String} {v : Archive},
      List.lookup k l = some v → (k, v) ∈ l := by
  intro l
  induction l with
  | nil => intro k v h; simp [List.lookup] at h
  | cons e es ih =>
    intro k v h
    obtain ⟨a, b⟩ := e
    by_cases hak : (k == a) = true
    · simp only [List.lookup, hak] at h
      have ha : k = a := eq_of_beq hak
      have hb : b = v := by injection h
      subst ha hb
      exact List.mem_cons_self _ _
    · have hf : (k == a) = false := by simpa using hak
      simp only [List.lookup, hf] at h
      exact List.mem_cons_of_mem _ (ih h)

theorem mem_okKeys_of_lookup {store : Store} {t : String}
    (h : List.lookup t store = some (Archive.zip true true)) : t ∈ okKeys store := by
  have hmem : (t, Archive.zip true true) ∈ store := lookup_pair_mem h
  unfold okKeys
  exact List.mem_map_of_mem Prod.fst (List.mem_filter.mpr ⟨hmem, by simp⟩)

theorem filter_len_le {p q : String → Bool} (himp : ∀ s, q s = true → p s = true) :
    ∀ L : List String, (L.filter q).length ≤ (L.filter p).length := by
  intro L
  induction L with
  | nil => simp
  | cons a L ih =>
    rw [List.filter_cons, List.filter_cons]
    by_cases hq : q a = true
    · rw [if_pos hq, if_pos (himp a hq)]
      simpa using ih
    · rw [if_neg hq]
      by_cases hp : p a = true
      · rw [if_pos hp]
        simp only [List.length_cons]
        omega
      · rw [if_neg hp]
        exact ih

theorem filter_len_lt {p q : String → Bool} (himp : ∀ s, q s = true → p s = true) :
    ∀ (L : List String) (t : String), t ∈ L → p t = true → q t = false →
      (L.filter q).length < (L.filter p).length := by
  intro L
  induction L with
  | nil => intro t ht; exact absurd ht (List.not_mem_nil t)
  | cons a L ih =>
    intro t ht hpt hqt
    rw [List.filter_cons, List.filter_cons]
    by_cases hat : a = t
    · subst hat
      rw [if_neg (by simp [hqt]), if_pos (by simp [hpt])]
      simp only [List.length_cons]
      exact Nat.lt_succ_of_le (filter_len_le himp L)
    · have htL : t ∈ L := (List.mem_cons.mp ht).resolve_left (fun he => hat he.symm)
      by_cases hqa : q a = true
      · rw [if_pos hqa, if_pos (himp a hqa)]
        simpa using ih t htL hpt hqt
      · rw [if_neg hqa]
        by_cases hpa : p a = true
        · rw [if_pos hpa]
          have := ih t htL hpt hqt
          simp only [List.length_cons]
          omega
        · rw [if_neg hpa]
          exact ih t htL hpt hqt

theorem phi_lt_of_ok {store : Store} {x t : String}
    (hl : List.lookup t store = some (Archive.zip true true))
    (hlen : x.length < t.length) : phi store t < phi store x := by
  unfold phi
  refine filter_len_lt ?_ (okKeys store) t (mem_okKeys_of_lookup hl) ?_ ?_
  · intro s hs
    simp only [decide_eq_true_eq] at hs ⊢
    omega
  · simp only [decide_eq_true_eq]
    exact hlen
  · simp

theorem muList_cons (store : Store) (x : String) (l : List String) :
    muList store (x :: l) = wgt store x + muList store l := by
  simp [muList]

theorem muList_append (store : Store) (l1 l2 : List String) :
    muList store (l1 ++ l2) = muList store l1 + muList store l2 := by
  simp [muList]

theorem mu_eq_cons {store : Store} {l : List String} {k : Nat} (h : k < l.length) :
    mu store l k = wgt store (l.get ⟨k, h⟩) + mu store l (k + 1) := by
  unfold mu
  rw [List.drop_eq_getElem_cons h, muList_cons]
  simp [List.get_eq_getElem]

theorem mu_succ_le (store : Store) (l : List String) (k : Nat) :
    mu store l (k + 1) ≤ mu store l k := by
  by_cases h : k < l.length
  · rw [mu_eq_cons h]
    omega
  · unfold mu
    rw [List.drop_eq_nil_of_le (by omega), List.drop_eq_nil_of_le (by omega)]

theorem mu_append_lt {store : Store} {l : List String} {k : Nat} {t : String}
    (h : k < l.length) (hphi : phi store t < phi store (l.get ⟨k, h⟩)) :
    mu store (l ++ [t]) (k + 1) < mu store l k := by
  have hdrop : List.drop (k + 1) (l ++ [t]) = List.drop (k + 1) l ++ [t] := by
    rw [List.drop_append_eq_append_drop]
    have h0 : k + 1 - l.length = 0 := by omega
    rw [h0]
    rfl
  have hstep : mu store (l ++ [t]) (k + 1) =
      muList store (List.drop (k + 1) l) + wgt store t := by
    unfold mu
    rw [hdrop, muList_append]
    simp [muList]
  rw [hstep, mu_eq_cons h]
  have : mu store l (k + 1) = muList store (List.drop (k + 1) l) := rfl
  rw [this]
  unfold wgt
  omega

theorem mu_erase_lt {store : Store} {l : List String} {k : Nat} (h : k < l.length) :
    mu store (l.eraseIdx k) (k + 1) < mu store l k := by
  have hlen : (List.take k l).length = k := by
    rw [List.length_take]
    exact min_eq_left (le_of_lt h)
  have hdrop : List.drop (k + 1) (l.eraseIdx k) = List.drop (k + 2) l := by
    rw [List.eraseIdx_eq_take_drop_succ, List.drop_append_eq_append_drop,
      List.drop_eq_nil_of_le (by rw [hlen]; omega), hlen]
    have h1 : k + 1 - k = 1 := by omega
    rw [h1, List.nil_append, List.drop_drop]
  have h2 : mu store (l.eraseIdx k) (k + 1) = mu store l (k + 2) := by
    unfold mu
    rw [hdrop]
  rw [h2, mu_eq_cons h]
  have h3 : mu store l (k + 2) ≤ mu store l (k + 1) := mu_succ_le store l (k + 1)
  unfold wgt
  omega

theorem resumeStep_next_mu {store : Store} {dest : String} {spf : Nat}
    {l l2 : List String} {k k2 : Nat}
    (h : resumeStep store dest spf l k = StepRes.next l2 k2) :
    mu store l2 k2 < mu store l k := by
  simp only [resumeStep] at h
  split at h
  case isTrue hk =>
    split at h
    · exact StepRes.noConfusion h
    · exact StepRes.noConfusion h
    case h_3 a b heq =>
      by_cases hab : (a && b) = true
      · rw [if_pos hab] at h
        obtain ⟨rfl, rfl⟩ : a = true ∧ b = true := by
          simpa [Bool.and_eq_true] using hab
        injection h with hl2 hk2
        subst hl2 hk2
        refine mu_append_lt hk (phi_lt_of_ok heq ?_)
        exact lt_of_lt_of_le (archiveName_length _ (spf - 1)) (pathJoin_length_ge dest _)
      · rw [if_neg hab] at h
        injection h with hl2 hk2
        subst hl2 hk2
        exact mu_erase_lt hk
  case isFalse hk => exact StepRes.noConfusion h

theorem resumeLoopF_isSome :
    ∀ (fuel : Nat) (store : Store) (dest : String) (spf : Nat)
      (l : List String) (k : Nat), mu store l k < fuel →
      ∃ r, resumeLoopF store dest spf fuel l k = some r := by
  intro fuel
  induction fuel with
  | zero => intro _ _ _ _ _ h; omega
  | succ fuel ih =>
    intro store dest spf l k h
    cases hstep : resumeStep store dest spf l k with
    | done r => exact ⟨r, by simp [resumeLoopF, hstep]⟩
    | next l2 k2 =>
      have hmu := resumeStep_next_mu hstep
      obtain ⟨r, hr⟩ := ih store dest spf l2 k2 (by omega)
      exact ⟨r, by simp [resumeLoopF, hstep, hr]⟩

/-!  ## Trace lemmas -/

theorem flatMap_if_singleton {β : Type} (g : Nat → Bool) (f : Nat → β) :
    ∀ l : List Nat, (l.flatMap fun i => if g i then [f i] else []) =
      (l.filter g).map f := by
  intro l
  induction l with
  | nil => rfl
  | cons a l ih =>
    rw [List.flatMap_cons, List.filter_cons]
    by_cases hg : g a = true
    · rw [if_pos hg, if_pos hg, List.map_cons, ih]
      rfl
    · rw [if_neg hg, if_neg hg, ih]
      rfl

theorem writesOf_getitemPlain {α : Type} (dest label : String) (spf : Nat)
    (draw : Nat → α) :
    writesOf (getitemPlain dest label spf draw) =
      (List.range spf).map (fun i => outPathPlain dest label i) := by
  unfold getitemPlain writesOf
  rw [List.filterMap_flatMap]
  have hblock : ∀ i : Nat,
      (List.filterMap (fun e => match e with | Ev.write p _ => some p | _ => none)
        (Ev.transformCall (α := α) i ::
          persistBlock (outPathPlain dest label i) (draw i))) =
      (if (fun _ : Nat => true) i then [outPathPlain dest label i] else []) := by
    intro i
    rfl
  calc (List.range spf).flatMap (fun i =>
        List.filterMap (fun e => match e with | Ev.write p _ => some p | _ => none)
          (Ev.transformCall (α := α) i :: persistBlock (outPathPlain dest label i) (draw i)))
      = (List.range spf).flatMap (fun i =>
          if (fun _ : Nat => true) i then [outPathPlain dest label i] else []) := by
        exact congrArg _ (funext hblock)
    _ = ((List.range spf).filter (fun _ => true)).map (fun i => outPathPlain dest label i) :=
        flatMap_if_singleton _ _ _
    _ = (List.range spf).map (fun i => outPathPlain dest label i) := by
        rw [List.filter_true]

theorem writesOf_outlierTrace {α : Type} (dest label : String) (spf : Nat)
    (draw : Nat → α) (fil : Option (α → Bool)) :
    writesOf (outlierTrace dest label spf draw fil) =
      ((List.range spf).filter (fun i => acceptsB fil (draw i))).map
        (fun i => outPathOutlier dest label i) := by
  unfold outlierTrace writesOf
  rw [List.filterMap_flatMap]
  have hblock : ∀ i : Nat,
      (List.filterMap (fun e => match e with | Ev.write p _ => some p | _ => none)
        (Ev.transformCall (α := α) i ::
          match fil with
          | none => persistBlock (outPathOutlier dest label i) (draw i)
          | some f =>
            Ev.filterCall i (draw i) ::
              (if f (draw i) then []
               else persistBlock (outPathOutlier dest label i) (draw i)))) =
      (if acceptsB fil (draw i) then [outPathOutlier dest label i] else []) := by
    intro i
    cases fil with
    | none => rfl
    | some f =>
      by_cases hf : f (draw i) = true
      · simp [acceptsB, hf, persistBlock]
      · simp only [Bool.not_eq_true] at hf
        simp [acceptsB, hf, persistBlock]
  calc (List.range spf).flatMap _
      = (List.range spf).flatMap (fun i =>
          if acceptsB fil (draw i) then [outPathOutlier dest label i] else []) := by
        exact congrArg _ (funext hblock)
    _ = _ := flatMap_if_singleton _ _ _

theorem checkTrace_append {α : Type} (p : Int → Ev α → Bool) :
    ∀ (t1 t2 : List (Ev α)) (d : Int),
      checkTrace p d (t1 ++ t2) =
        (checkTrace p d t1 && checkTrace p (finalDepth d t1) t2) := by
  intro t1
  induction t1 with
  | nil =>
    intro t2 d
    simp [checkTrace, finalDepth]
  | cons e t1 ih =>
    intro t2 d
    simp [checkTrace, finalDepth, ih, Bool.and_assoc]

theorem finalDepth_append {α : Type} (d : Int) (t1 t2 : List (Ev α)) :
    finalDepth d (t1 ++ t2) = finalDepth (finalDepth d t1) t2 := by
  simp [finalDepth, List.foldl_append]

/-!  ## Properties of `split`/`lastComponent` -/

theorem splitOnChar_ne_nil (sep : Char) : ∀ cs, splitOnChar sep cs ≠ [] := by
  intro cs
  cases cs with
  | nil => simp [splitOnChar]
  | cons c cs =>
    cases h : splitOnChar sep cs with
    | nil => simp [splitOnChar, h]
    | cons g gs =>
      simp only [splitOnChar, h]
      split <;> simp

theorem mem_splitOnChar_no_sep (sep : Char) :
    ∀ (cs : List Char) (g : List Char), g ∈ splitOnChar sep cs → sep ∉ g := by
  intro cs
  induction cs with
  | nil =>
    intro g hg
    have : g = [] := by simpa [splitOnChar] using hg
    subst this
    simp
  | cons c cs ih =>
    intro g hg
    cases hrec : splitOnChar sep cs with
    | nil => exact absurd hrec (splitOnChar_ne_nil sep cs)
    | cons g0 gs =>
      simp only [splitOnChar, hrec] at hg
      by_cases hc : c = sep
      · rw [if_pos hc] at hg
        rcases List.mem_cons.mp hg with rfl | hg2
        · simp
        · exact ih g (by rw [hrec]; exact hg2)
      · rw [if_neg hc] at hg
        rcases List.mem_cons.mp hg with rfl | hg2
        · have h0 : sep ∉ g0 := ih g0 (by rw [hrec]; exact List.mem_cons_self _ _)
          intro hmem
          rcases List.mem_cons.mp hmem with he | hmem2
          · exact hc he.symm
          · exact h0 hmem2
        · exact ih g (by rw [hrec]; exact List.mem_cons_of_mem _ hg2)

theorem splitOnChar_no_sep (sep : Char) :
    ∀ g : List Char, sep ∉ g → splitOnChar sep g = [g] := by
  intro g
  induction g with
  | nil => intro; rfl
  | cons c cs ih =>
    intro hmem
    have hc : ¬ c = sep := fun h => hmem (by rw [h]; exact List.mem_cons_self _ _)
    have hcs : sep ∉ cs := fun h => hmem (List.mem_cons_of_mem _ h)
    simp [splitOnChar, ih hcs, hc]

theorem getLastD_map_mk :
    ∀ (gs : List (List Char)) (d : List Char),
      (List.map String.mk gs).getLastD (String.mk d) = String.mk (gs.getLastD d) := by
  intro gs
  induction gs with
  | nil => intro d; rfl
  | cons g gs ih =>
    intro d
    cases gs with
    | nil => rfl
    | cons g2 gs2 =>
      have h1 : (List.map String.mk (g :: g2 :: gs2)).getLastD (String.mk d) =
          (List.map String.mk (g2 :: gs2)).getLastD (String.mk g) := rfl
      have h2 : ((g :: g2 :: gs2).getLastD d) = ((g2 :: gs2).getLastD g) := rfl
      rw [h1, h2]
      exact ih g

theorem getLastD_mem : ∀ (l : List (List Char)) (d : List Char), l ≠ [] → l.getLastD d ∈ l := by
  intro l
  induction l with
  | nil => intro d h; exact absurd rfl h
  | cons a t ih =>
    intro d _
    cases t with
    | nil => exact List.mem_cons_self _ _
    | cons b t2 =>
      have hdef : ((a :: b :: t2).getLastD d) = (b :: t2).getLastD a := rfl
      rw [hdef]
      exact List.mem_cons_of_mem _ (ih a (by simp))

theorem lastComponent_eq_mk (s : String) :
    lastComponent s = String.mk ((splitOnChar '/' s.toList).getLastD []) := by
  unfold lastComponent pySplit
  exact getLastD_map_mk (splitOnChar '/' s.toList) []

theorem lastComponent_idem (s : String) :
    lastComponent (lastComponent s) = lastComponent s := by
  rw [lastComponent_eq_mk s]
  have hg : '/' ∉ (splitOnChar '/' s.toList).getLastD [] :=
    mem_splitOnChar_no_sep '/' s.toList _
      (getLastD_mem _ _ (splitOnChar_ne_nil '/' s.toList))
  rw [lastComponent_eq_mk (String.mk ((splitOnChar '/' s.toList).getLastD []))]
  have ht : (String.mk ((splitOnChar '/' s.toList).getLastD [])).toList =
      (splitOnChar '/' s.toList).getLastD [] := rfl
  rw [ht, splitOnChar_no_sep '/' _ hg]
  rfl

/-!  ## `test_integrity` lemmas -/

/-- Claim C6 (amended): `test_integrity` completes its scan without an
uncaught exception exactly when every listed file exists and `np.load`
opens it; in that case a failure extracting either named array is caught,
the filename and the failing array are reported, and the scan continues —
the reports are exactly the extraction failures in listing order.  A file
that exists but that `np.load` cannot open raises an uncaught exception
to the caller (the `np.load` call sits outside the `try` block), contrary
to the claim as stated. -/
theorem claim6_amended :
    ∀ (store : Store) (dirPath : String) (listing : List String),
      ((test_integrity store dirPath listing).2 = none ↔
        ∀ f ∈ listing, openable store dirPath f) ∧
      ((∀ f ∈ listing, openable store dirPath f) →
        (test_integrity store dirPath listing).1 =
          listing.filterMap (reportOf store dirPath)) := by
  intro store dirPath listing
  induction listing with
  | nil => simp [test_integrity]
  | cons f rest ih =>
    by_cases hop : openable store dirPath f
    · obtain ⟨a, b, hl⟩ := hop
      have hti : test_integrity store dirPath (f :: rest) =
          (repOf f a b ++ (test_integrity store dirPath rest).1,
            (test_integrity store dirPath rest).2) := by
        simp [test_integrity, hl]
      constructor
      · rw [hti]
        constructor
        · intro h2 g hg
          rcases List.mem_cons.mp hg with rfl | hg2
          · exact ⟨a, b, hl⟩
          · exact (ih.1.mp h2) g hg2
        · intro hall
          exact ih.1.mpr (fun g hg => hall g (List.mem_cons_of_mem f hg))
      · intro hall
        rw [hti]
        have hrest := ih.2 (fun g hg => hall g (List.mem_cons_of_mem f hg))
        rw [List.filterMap_cons]
        show repOf f a b ++ (test_integrity store dirPath rest).1 = _
        rw [hrest]
        cases a <;> cases b <;> simp [repOf, reportOf, hl]
    · have herr : ∃ e, test_integrity store dirPath (f :: rest) = ([], some e) := by
        cases hl : List.lookup (pathJoin dirPath f) store with
        | none => exact ⟨VerifyErr.fileNotFound f, by simp [test_integrity, hl]⟩
        | some arch =>
          cases arch with
          | notAZip => exact ⟨VerifyErr.loadFailed f, by simp [test_integrity, hl]⟩
          | zip a b => exact absurd ⟨a, b, hl⟩ hop
      obtain ⟨e, he⟩ := herr
      constructor
      · rw [he]
        constructor
        · intro h2
          exact absurd h2 (by simp)
        · intro hall
          exact absurd (hall f (by simp)) hop
      · intro hall
        exact absurd (hall f (by simp)) hop

/-!  ## Claims -/

/-- Lock-discipline facts of one slot of the plain generation loop:
`os.makedirs` runs at lock depth 0, the write at depth 1, and the lock is
balanced at the end of the slot. -/
theorem checkTrace_persist {α : Type} (p : String) (img : α) (i : Nat) :
    checkTrace codeGuard 0 (Ev.transformCall i :: persistBlock p img) = true ∧
    finalDepth 0 (Ev.transformCall i :: persistBlock p img) = (0 : Int) := by
  constructor <;> rfl

/-- Claim C1: the claim states that `resume_preprocessing` returns exactly
the verified-complete prefixes and that `__init__` subtracts them from the
work list.  In fact, on a destination containing one complete prefix `A`
(2 of 2 archives, final archive fully valid), the loop appends the full
path `out/A_001.npz` to the list it is iterating, then iterates onto that
path and calls `np.load` on the non-existent joined path
`out/out/A_001.npz_001.npz`, raising an uncaught `FileNotFoundError`:
construction with `resume=True` crashes instead of producing the work
list `["B"]`. -/
theorem claim1_resume_crashes_on_valid_prefix :
    initWorkList [("out/A_001.npz", Archive.zip true true)] "out"
        (some ["A_000.npz", "A_001.npz"]) 2 ["A", "B"] true =
      Except.error (LoadErr.fileNotFound "out/out/A_001.npz_001.npz") := by
  rfl

/-- Claim C2: the claim states that every count-complete prefix has its
final archive opened and validated, with any failure demoting exactly
that prefix.  On a destination with two count-complete prefixes `A`, `B`
whose final archives are both corrupt at the array-extraction stage, the
code demotes `A` (`pop(j)`), the list iterator then skips `B`, and `B` is
returned as valid even though its final archive (second conjunct) is
corrupt and was never validated. -/
theorem claim2_skipped_prefix_kept_without_validation :
    resume_preprocessing
        [("out/A_001.npz", Archive.zip false false),
          ("out/B_001.npz", Archive.zip false false)]
        "out" (some ["A_000.npz", "A_001.npz", "B_000.npz", "B_001.npz"]) 2 =
      Except.ok ["B"] ∧
    List.lookup (pathJoin "out" (archiveName "B" 1))
        [("out/A_001.npz", Archive.zip false false),
          ("out/B_001.npz", Archive.zip false false)] =
      some (Archive.zip false false) := by
  exact ⟨rfl, rfl⟩

/-- Claim C3 counterexample: with the destination directory missing,
`resume_preprocessing` raises the `os.listdir` error instead of returning
the empty valid set. -/
theorem claim3_missing_dir_raises :
    resume_preprocessing [] "dest" none 5 = Except.error LoadErr.listDirFailed ∧
    resume_preprocessing [] "dest" none 5 ≠ Except.ok [] := by
  exact ⟨rfl, fun h => nomatch h⟩

/-- Claim C3 (amended): a missing destination directory makes
`resume_preprocessing` raise the listing error rather than return the
empty set; an exception while deserializing the two arrays of a
successfully opened archive is caught at that step — the iteration
removes the current element and continues rather than aborting (an
`np.load` open failure, by contrast, is not caught). -/
theorem claim3_amended :
    (∀ (store : Store) (dest : String) (spf : Nat),
      resume_preprocessing store dest none spf =
        Except.error LoadErr.listDirFailed) ∧
    (∀ (store : Store) (dest : String) (spf : Nat) (l : List String) (k : Nat)
      (h : k < l.length) (a b : Bool),
      List.lookup (pathJoin dest (archiveName (l.get ⟨k, h⟩) (spf - 1))) store =
        some (Archive.zip a b) →
      (a && b) = false →
      resumeStep store dest spf l k = StepRes.next (l.eraseIdx k) (k + 1)) := by
  constructor
  · intro store dest spf
    rfl
  · intro store dest spf l k h a b hl hab
    simp only [List.get_eq_getElem] at hl
    simp only [resumeStep, dif_pos h, List.get_eq_getElem]
    rw [hl]
    simp [hab]

/-- Claim C3 witness: both parts of the amended claim at concrete
inputs. -/
theorem claim3_amended_witness :
    resume_preprocessing [] "x" none 3 = Except.error LoadErr.listDirFailed ∧
    resumeStep [("out/A_001.npz", Archive.zip false false)] "out" 2 ["A"] 0 =
      StepRes.next [] 1 := by
  refine ⟨claim3_amended.1 [] "x" 3, ?_⟩
  exact claim3_amended.2 [("out/A_001.npz", Archive.zip false false)] "out" 2
    ["A"] 0 (by decide) false false rfl rfl

/-- Claim C4: in the plain variant, a full pass of the per-Case loop
writes exactly `samples_per_file` archives: the write sequence is the
archive path of every index `0 .. samples_per_file - 1` in order, the
archive names are pairwise distinct, and every written path is the
destination joined with a name extending the Case's `label_base`. -/
theorem claim4_plain_writes_exact :
    ∀ (α : Type) (dest label : String) (spf : Nat) (draw : Nat → α),
      writesOf (getitemPlain dest label spf draw) =
        (List.range spf).map
          (fun i => pathJoin dest (archiveName (labelBasePlain label) i)) ∧
      (writesOf (getitemPlain dest label spf draw)).length = spf ∧
      ((List.range spf).map (archiveName (labelBasePlain label))).Nodup ∧
      (∀ w ∈ writesOf (getitemPlain dest label spf draw),
        ∃ i, i < spf ∧ ∃ s, w = pathJoin dest (labelBasePlain label ++ s)) := by
  intro α dest label spf draw
  have hw := writesOf_getitemPlain (α := α) dest label spf draw
  have hout : ∀ i, outPathPlain dest label i =
      pathJoin dest (archiveName (labelBasePlain label) i) := fun _ => rfl
  refine ⟨hw, ?_, ?_, ?_⟩
  · rw [hw, List.length_map, List.length_range]
  · exact List.Nodup.map (archiveName_inj _) (List.nodup_range spf)
  · intro w hwm
    rw [hw] at hwm
    obtain ⟨i, hi, hfw⟩ := List.mem_map.mp hwm
    refine ⟨i, List.mem_range.mp hi, "_" ++ (pad3 i ++ ".npz"), ?_⟩
    have hname : archiveName (labelBasePlain label) i =
        labelBasePlain label ++ ("_" ++ (pad3 i ++ ".npz")) := by
      unfold archiveName
      rw [String.append_assoc, String.append_assoc]
    rw [← hfw, ← hname]
    rfl

/-- Claim C4 witness: a concrete write and its decomposition. -/
theorem claim4_witness :
    "out/a_000.npz" ∈ writesOf (getitemPlain "out" "a.nii.gz" 1 (fun _ => ())) ∧
    (∃ i, i < 1 ∧ ∃ s, "out/a_000.npz" =
      pathJoin "out" (labelBasePlain "a.nii.gz" ++ s)) := by
  refine ⟨by decide, ?_⟩
  exact (claim4_plain_writes_exact Unit "out" "a.nii.gz" 1 (fun _ => ())).2.2.2
    "out/a_000.npz" (by decide)

/-- Claim C5: the claim states the supplied `outlier_detection_fn` is
invoked once per draw and that without a filter every draw is persisted.
In fact `__init__` never assigns `self.outlier_detection_fn`, so every
`__getitem__` call (with at least one slot) invokes the transform once
and then raises `AttributeError` at the filter check, whatever filter
argument was supplied at construction: nothing is filtered or
persisted. -/
theorem claim5_outlier_attribute_bug :
    ∀ (α : Type) (dest : String) (spf : Nat) (draw : Nat → α)
      (fn : Option (α → Bool)) (label : String), 0 < spf →
      outlierGetitemRun (outlierInit dest spf draw fn) label =
        ([Ev.transformCall 0], some RunErr.attributeError) := by
  intro α dest spf draw fn label hspf
  obtain ⟨n, rfl⟩ : ∃ n, spf = n + 1 := ⟨spf - 1, by omega⟩
  rfl

/-- Claim C5 witness: the attribute failure at a concrete construction. -/
theorem claim5_witness :
    0 < 1 ∧
    outlierGetitemRun
        (outlierInit "out" 1 (fun _ : Nat => (0 : Nat)) (some (fun _ => false)))
        "lbl" =
      ([Ev.transformCall 0], some RunErr.attributeError) :=
  ⟨Nat.one_pos,
    claim5_outlier_attribute_bug Nat "out" 1 (fun _ => 0) (some (fun _ => false))
      "lbl" Nat.one_pos⟩

/-- Claim C6 counterexample: a listed file that exists but that `np.load`
cannot open (garbage bytes) raises an uncaught exception to the caller of
`test_integrity` — its deserialization failure is not merely reported. -/
theorem claim6_open_failure_propagates :
    test_integrity [("d/bad.npz", Archive.notAZip)] "d" ["bad.npz"] =
      ([], some (VerifyErr.loadFailed "bad.npz")) := by
  rfl

/-- Claim C6 witness: on a listing whose files all open, the scan
completes and reports exactly the array-extraction failure. -/
theorem claim6_amended_witness :
    (∀ f ∈ (["good.npz", "bad.npz"] : List String),
      openable [("d/good.npz", Archive.zip true true),
        ("d/bad.npz", Archive.zip false true)] "d" f) ∧
    (test_integrity [("d/good.npz", Archive.zip true true),
        ("d/bad.npz", Archive.zip false true)] "d" ["good.npz", "bad.npz"]).1 =
      [("bad.npz", ArrFail.inputBad)] := by
  have hall : ∀ f ∈ (["good.npz", "bad.npz"] : List String),
      openable [("d/good.npz", Archive.zip true true),
        ("d/bad.npz", Archive.zip false true)] "d" f := by
    intro f hf
    rcases List.mem_cons.mp hf with rfl | hf2
    · exact ⟨true, true, rfl⟩
    · rcases List.mem_cons.mp hf2 with rfl | hf3
      · exact ⟨false, true, rfl⟩
      · exact absurd hf3 (List.not_mem_nil f)
  refine ⟨hall, ?_⟩
  rw [(claim6_amended [("d/good.npz", Archive.zip true true),
    ("d/bad.npz", Archive.zip false true)] "d" ["good.npz", "bad.npz"]).2 hall]
  rfl

/-- Claim C7 counterexample: a listed-but-missing file halts the scan —
the remaining (perfectly valid) file is never examined and the
`FileNotFoundError` propagates, contrary to the claim that the scan
continues. -/
theorem claim7_missing_file_halts_scan :
    test_integrity [("d/b.npz", Archive.zip true true)] "d" ["a.npz", "b.npz"] =
      ([], some (VerifyErr.fileNotFound "a.npz")) := by
  rfl

/-- Claim C7 (amended): a listed file missing at open time raises a
`FileNotFoundError` naming that file — an error distinct from the
deserialization handling — and this uncaught error *halts* the scan: the
result carries only the reports of the files before it and is independent
of the files after it. -/
theorem claim7_amended :
    ∀ (store : Store) (dirPath : String) (pre : List String) (f : String)
      (rest : List String),
      (∀ g ∈ pre, openable store dirPath g) →
      List.lookup (pathJoin dirPath f) store = none →
      test_integrity store dirPath (pre ++ f :: rest) =
        (pre.filterMap (reportOf store dirPath),
          some (VerifyErr.fileNotFound f)) := by
  intro store dirPath pre
  induction pre with
  | nil =>
    intro f rest _ hf
    simp [test_integrity, hf]
  | cons g pre ih =>
    intro f rest hpre hf
    obtain ⟨a, b, hg⟩ := hpre g (List.mem_cons_self _ _)
    have hrec := ih f rest (fun x hx => hpre x (List.mem_cons_of_mem _ hx)) hf
    show test_integrity store dirPath (g :: (pre ++ f :: rest)) = _
    cases a <;> cases b <;>
      simp [test_integrity, hg, hrec, repOf, reportOf, List.filterMap_cons]

/-- Claim C7 witness: the amended behaviour at a concrete listing. -/
theorem claim7_amended_witness :
    test_integrity [("d/ok.npz", Archive.zip true true)] "d"
        ["ok.npz", "gone.npz", "later.npz"] =
      ([], some (VerifyErr.fileNotFound "gone.npz")) := by
  have h := claim7_amended [("d/ok.npz", Archive.zip true true)] "d"
    ["ok.npz"] "gone.npz" ["later.npz"]
    (fun g hg => by
      rcases List.mem_cons.mp hg with rfl | hg2
      · exact ⟨true, true, rfl⟩
      · exact absurd hg2 (List.not_mem_nil g))
    rfl
  exact h

/-- Claim C8 counterexample: for the label path `a.nii.gz.nii.gz`, the
code removes *every* occurrence of `.nii.gz` (writing `out/a_000.npz`),
whereas the claimed name from stripping the volume-format suffix would be
`out/a.nii.gz_000.npz`; the two differ. -/
theorem claim8_double_suffix_name_mismatch :
    writesOf (getitemPlain "out" "a.nii.gz.nii.gz" 1 (fun _ => ())) =
      ["out/a_000.npz"] ∧
    labelBaseSpec "a.nii.gz.nii.gz" = "a.nii.gz" ∧
    pathJoin "out" (archiveName (labelBaseSpec "a.nii.gz.nii.gz") 0) =
      "out/a.nii.gz_000.npz" ∧
    ("out/a_000.npz" : String) ≠ "out/a.nii.gz_000.npz" := by
  exact ⟨rfl, rfl, rfl, by decide⟩

/-- Claim C8 (amended): every archive written by either variant is named
`{label_base}_{i:03d}.npz` with `i < samples_per_file`, where
`label_base` is the label path with every occurrence of the substring
`.nii.gz` deleted (not only a trailing suffix) and the last `/`-separated
component taken; the two variants compute the same `label_base` (the
plain variant's extra `os.path.basename` is idempotent). -/
theorem claim8_amended :
    ∀ (α : Type) (dest label : String) (spf : Nat) (draw : Nat → α)
      (fil : Option (α → Bool)),
      writesOf (getitemPlain dest label spf draw) =
        (List.range spf).map
          (fun i => pathJoin dest (archiveName (labelBasePlain label) i)) ∧
      writesOf (outlierTrace dest label spf draw fil) =
        ((List.range spf).filter (fun i => acceptsB fil (draw i))).map
          (fun i => pathJoin dest (archiveName (labelName label) i)) ∧
      labelBasePlain label = labelName label := by
  intro α dest label spf draw fil
  exact ⟨writesOf_getitemPlain dest label spf draw,
    writesOf_outlierTrace dest label spf draw fil,
    lastComponent_idem (pyReplace label ".nii.gz" "")⟩

/-- Claim C9 counterexample: in a concrete one-slot run, the trace
violates the discipline "directory creation and archive write both inside
the critical section": `os.makedirs` executes at lock depth 0. -/
theorem claim9_makedirs_outside_lock :
    checkTrace claimGuard 0 (getitemPlain "out" "A.nii.gz" 1 (fun _ => ())) =
      false := by
  rfl

/-- Claim C9 (amended): per persisted Sample, only the
`np.savez_compressed` write executes inside the critical section (at lock
depth exactly 1); `os.makedirs` executes before acquiring the lock (at
depth 0); acquisitions and releases are balanced across the whole
per-Case run. -/
theorem claim9_amended :
    ∀ (α : Type) (dest label : String) (spf : Nat) (draw : Nat → α),
      checkTrace codeGuard 0 (getitemPlain dest label spf draw) = true ∧
      finalDepth 0 (getitemPlain dest label spf draw) = 0 := by
  intro α dest label spf draw
  induction spf with
  | zero => exact ⟨rfl, rfl⟩
  | succ n ih =>
    have hsplit : getitemPlain dest label (n + 1) draw =
        getitemPlain dest label n draw ++
          (Ev.transformCall n ::
            persistBlock (outPathPlain dest label n) (draw n)) := by
      unfold getitemPlain
      rw [List.range_succ, List.flatMap_append, List.flatMap_singleton]
    rw [hsplit, checkTrace_append, finalDepth_append, ih.1, ih.2]
    refine ⟨?_, (checkTrace_persist (outPathPlain dest label n) (draw n) n).2⟩
    rw [(checkTrace_persist (outPathPlain dest label n) (draw n) n).1]
    rfl

/-- Claim C10: for every destination listing and `samples_per_file`, the
resume-validation loop terminates: some finite fuel makes the
step-indexed loop return a value, and `resume_preprocessing` equals that
value (in particular it never hits the fuel bound artifact).  The proof
rests on the measure `mu`: a successful validation appends a strictly
longer path whose potential is strictly smaller, and a demotion shrinks
the pending region by two. -/
theorem claim10_resume_loop_terminates :
    ∀ (store : Store) (dest : String) (names : List String) (spf : Nat),
      ∃ fuel r,
        resumeLoopF store dest spf fuel (validInit names spf) 0 = some r ∧
        resume_preprocessing store dest (some names) spf = r := by
  intro store dest names spf
  obtain ⟨r, hr⟩ := resumeLoopF_isSome (mu store (validInit names spf) 0 + 1)
    store dest spf (validInit names spf) 0 (Nat.lt_succ_self _)
  refine ⟨mu store (validInit names spf) 0 + 1, r, hr, ?_⟩
  show (resumeLoopF store dest spf (mu store (validInit names spf) 0 + 1)
      (validInit names spf) 0).getD (Except.error LoadErr.outOfFuel) = r
  rw [hr]
  rfl

end Datacentric
